import Mathlib

/-!
Verification of the parallel Riemann-sum benchmark in src/main.cpp.

Modelling conventions:
* C++ `double` values are modelled by exact rationals (`ℚ`); floating-point
  rounding is outside the model, so every equation below is an exact-arithmetic
  statement about the sums the program forms.
* `uint64_t` arithmetic is modelled by `ℕ` with an explicit `% 2 ^ 64` at every
  operation that can wrap.
* The OpenMP / `std::thread` worker count `T` (the value of `get_num_threads()`
  resp. `omp_get_num_threads()`) is passed as an explicit parameter.
* Each strategy's per-worker loop `for (unsigned i = t; i < STEPS; i += T)` is
  embedded by `stridedFold`; the sequential loop of `integrateDefault` by
  `seqFold`.  Worker partial sums are combined in worker order `t = 0 .. T-1`;
  the C++ combine order is nondeterministic, but over `ℚ` addition is
  commutative and associative, so the combined value is order-independent.
-/

/-- STEPS sample-count constant (`#define STEPS 100000000`). -/
def STEPS : ℕ := 100000000

/-- CACHE_LINE constant (`#define CACHE_LINE 64u`). -/
def CACHE_LINE : ℕ := 64

/-- Integrand `double f(double x) { return x * x; }`. -/
def f (x : ℚ) : ℚ := x * x

/-- Loop skeleton shared by every strategy's worker:
`for (unsigned i = s; i < N; i += T) acc = step i acc`.
The guard demands `0 < T` so that the model is total; for `T = 0` the C++ loop
never terminates (zero stride), a configuration the spec rules invalid. -/
def stridedFold {α : Type} (step : ℕ → α → α) (N T s : ℕ) (acc : α) : α :=
  if h : 0 < T ∧ s < N then stridedFold step N T (s + T) (step s acc) else acc
termination_by N - s
decreasing_by omega

/-- Sequential loop of `integrateDefault`:
`for (unsigned i = s; i < N; i++) acc = step i acc`. -/
def seqFold {α : Type} (step : ℕ → α → α) (N s : ℕ) (acc : α) : α :=
  if h : s < N then seqFold step N (s + 1) (step s acc) else acc
termination_by N - s
decreasing_by omega

/-- Indices visited by the strided worker loop, in execution order. -/
def stridedIdx (N T s : ℕ) : List ℕ :=
  if h : 0 < T ∧ s < N then s :: stridedIdx N T (s + T) else []
termination_by N - s
decreasing_by omega

/-- Index set of worker `t` under the strided partition of `{0, …, N-1}`
(spec §4.1: `{ i : i ≡ t (mod T), 0 <= i < N }`). -/
def workerSet (N T t : ℕ) : Finset ℕ :=
  (Finset.range N).filter (fun i => i % T = t)

theorem mem_stridedIdx {N T : ℕ} (hT : 0 < T) :
    ∀ s i, i ∈ stridedIdx N T s ↔ (i < N ∧ s ≤ i ∧ (i - s) % T = 0) := by
  have main : ∀ k s i, N - s ≤ k →
      (i ∈ stridedIdx N T s ↔ (i < N ∧ s ≤ i ∧ (i - s) % T = 0)) := by
    intro k
    induction k with
    | zero =>
      intro s i hk
      rw [stridedIdx]
      have hs : ¬ s < N := by omega
      simp only [hT, hs, and_false, dite_false, List.not_mem_nil, false_iff]
      omega
    | succ k ih =>
      intro s i hk
      by_cases hs : s < N
      · rw [stridedIdx]
        rw [dif_pos (And.intro hT hs)]
        rw [List.mem_cons, ih (s + T) i (by omega)]
        constructor
        · rintro (rfl | ⟨h1, h2, h3⟩)
          · exact ⟨hs, Nat.le_refl _, by simp⟩
          · refine ⟨h1, by omega, ?_⟩
            have hd : T ∣ (i - (s + T)) := Nat.dvd_iff_mod_eq_zero.mpr h3
            have hd2 : T ∣ (i - s) := by
              have hi : i - s = (i - (s + T)) + T := by omega
              rw [hi]
              exact Nat.dvd_add hd dvd_rfl
            exact Nat.dvd_iff_mod_eq_zero.mp hd2
        · rintro ⟨h1, h2, h3⟩
          by_cases hi : i = s
          · exact Or.inl hi
          · right
            have hd : T ∣ (i - s) := Nat.dvd_iff_mod_eq_zero.mpr h3
            have hpos : 0 < i - s := by omega
            have hTle : T ≤ i - s := Nat.le_of_dvd hpos hd
            refine ⟨h1, by omega, ?_⟩
            have hi2 : i - (s + T) = (i - s) - T := by omega
            rw [hi2]
            exact Nat.dvd_iff_mod_eq_zero.mp (Nat.dvd_sub' hd dvd_rfl)
      · rw [stridedIdx]
        simp only [hT, hs, and_false, dite_false, List.not_mem_nil, false_iff]
        omega
  intro s i
  exact main (N - s) s i (Nat.le_refl _)

theorem stridedIdx_nodup {N T : ℕ} (hT : 0 < T) : ∀ s, (stridedIdx N T s).Nodup := by
  have main : ∀ k s, N - s ≤ k → (stridedIdx N T s).Nodup := by
    intro k
    induction k with
    | zero =>
      intro s hk
      rw [stridedIdx]
      have hs : ¬ s < N := by omega
      simp [hT, hs]
    | succ k ih =>
      intro s hk
      by_cases hs : s < N
      · rw [stridedIdx, dif_pos (And.intro hT hs)]
        refine List.nodup_cons.mpr ⟨?_, ih (s + T) (by omega)⟩
        rw [mem_stridedIdx hT]
        omega
      · rw [stridedIdx]
        simp [hT, hs]
  intro s
  exact main (N - s) s (Nat.le_refl _)

theorem stridedIdx_toFinset {N T : ℕ} (hT : 0 < T) {t : ℕ} (ht : t < T) :
    (stridedIdx N T t).toFinset = workerSet N T t := by
  ext i
  rw [List.mem_toFinset, mem_stridedIdx hT, workerSet, Finset.mem_filter, Finset.mem_range]
  constructor
  · rintro ⟨h1, h2, h3⟩
    refine ⟨h1, ?_⟩
    obtain ⟨m, hm⟩ := Nat.dvd_iff_mod_eq_zero.mpr h3
    have hi : t + T * m = i := by
      rw [← hm]
      exact Nat.add_sub_cancel' h2
    rw [← hi, Nat.add_mul_mod_self_left, Nat.mod_eq_of_lt ht]
  · rintro ⟨h1, h2⟩
    have hle : t ≤ i := h2 ▸ Nat.mod_le i T
    refine ⟨h1, hle, ?_⟩
    have he := Nat.div_add_mod i T
    rw [h2] at he
    have h3 : i - t = T * (i / T) := by omega
    rw [h3]
    exact Nat.mul_mod_right T _

theorem stridedFold_eq_idx_sum {M : Type} [AddCommMonoid M] (g : ℕ → M) (N T : ℕ) :
    ∀ s (acc : M),
      stridedFold (fun i x => x + g i) N T s acc = acc + ((stridedIdx N T s).map g).sum := by
  have main : ∀ k s acc, N - s ≤ k →
      stridedFold (fun i x => x + g i) N T s acc
        = acc + ((stridedIdx N T s).map g).sum := by
    intro k
    induction k with
    | zero =>
      intro s acc hk
      rw [stridedFold, stridedIdx]
      have hs : ¬ s < N := by omega
      by_cases hT : 0 < T <;> simp [hT, hs]
    | succ k ih =>
      intro s acc hk
      by_cases h : 0 < T ∧ s < N
      · rw [stridedFold, stridedIdx, dif_pos h, dif_pos h]
        rw [ih (s + T) (acc + g s) (by omega)]
        rw [List.map_cons, List.sum_cons, add_assoc]
      · rw [stridedFold, stridedIdx, dif_neg h, dif_neg h]
        simp
  intro s acc
  exact main (N - s) s acc (Nat.le_refl _)

/-- One worker's strided loop computes exactly the sum of `g` over its index
set in the partition. -/
theorem stridedFold_workerSum {M : Type} [AddCommMonoid M] (g : ℕ → M) {N T t : ℕ}
    (hT : 0 < T) (ht : t < T) (acc : M) :
    stridedFold (fun i x => x + g i) N T t acc = acc + ∑ i in workerSet N T t, g i := by
  rw [stridedFold_eq_idx_sum, ← List.sum_toFinset g (stridedIdx_nodup hT t),
    stridedIdx_toFinset hT ht]

/-- The worker index sets partition the range: summing each worker's total
recovers the sum over all of `{0, …, N-1}`. -/
theorem sum_workerSet {M : Type} [AddCommMonoid M] (g : ℕ → M) {N T : ℕ} (hT : 0 < T) :
    ∑ t in Finset.range T, ∑ i in workerSet N T t, g i = ∑ i in Finset.range N, g i := by
  exact Finset.sum_fiberwise_of_maps_to (fun i _ => Finset.mem_range.mpr (Nat.mod_lt i hT)) g

theorem sum_stridedFold {M : Type} [AddCommMonoid M] (g : ℕ → M) (N : ℕ) {T : ℕ} (hT : 0 < T) :
    ∑ t in Finset.range T, stridedFold (fun i x => x + g i) N T t 0
      = ∑ i in Finset.range N, g i := by
  have h : ∀ t ∈ Finset.range T,
      stridedFold (fun i x => x + g i) N T t 0 = ∑ i in workerSet N T t, g i := by
    intro t ht
    rw [stridedFold_workerSum g hT (Finset.mem_range.mp ht), zero_add]
  rw [Finset.sum_congr rfl h, sum_workerSet g hT]

/-- The stride-1 loop is the sequential loop, for an arbitrary loop body. -/
theorem stridedFold_one {α : Type} (step : ℕ → α → α) (N : ℕ) :
    ∀ s acc, stridedFold step N 1 s acc = seqFold step N s acc := by
  have main : ∀ k s acc, N - s ≤ k →
      stridedFold step N 1 s acc = seqFold step N s acc := by
    intro k
    induction k with
    | zero =>
      intro s acc hk
      rw [stridedFold, seqFold]
      have hs : ¬ s < N := by omega
      simp [hs]
    | succ k ih =>
      intro s acc hk
      by_cases hs : s < N
      · rw [stridedFold, seqFold, dif_pos (And.intro Nat.one_pos hs), dif_pos hs]
        exact ih (s + 1) (step s acc) (by omega)
      · rw [stridedFold, seqFold]
        simp [hs]
  intro s acc
  exact main (N - s) s acc (Nat.le_refl _)

theorem workerSet_one (N : ℕ) : workerSet N 1 0 = Finset.range N := by
  simp [workerSet, Nat.mod_one]

theorem seqFold_sum {M : Type} [AddCommMonoid M] (g : ℕ → M) (N : ℕ) (acc : M) :
    seqFold (fun i x => x + g i) N 0 acc = acc + ∑ i in Finset.range N, g i := by
  rw [← stridedFold_one, stridedFold_workerSum g Nat.one_pos Nat.one_pos, workerSet_one]

/-- integrateDefault from main.cpp, with the sample count `N` generalized
(the source fixes `N = STEPS`):
`result = 0; dx = (b-a)/N; for (i = 0; i < N; i++) result += f(i*dx + a); return result*dx`. -/
def integrateDefaultN (N : ℕ) (a b : ℚ) (f : ℚ → ℚ) : ℚ :=
  let dx := (b - a) / (N : ℚ)
  seqFold (fun i result => result + f ((i : ℚ) * dx + a)) N 0 0 * dx

/-- integrateDefault at the source's sample count `STEPS`. -/
def integrateDefault (a b : ℚ) (f : ℚ → ℚ) : ℚ := integrateDefaultN STEPS a b f

/-- integrateCrit: an OpenMP team of `T` workers; worker `t` accumulates
`R += f(i*dx + a)` over `i = t, t+T, …` and then does `result += R` inside
`#pragma omp critical`.  The critical section serializes the combines in a
nondeterministic order; the model combines in worker order (over `ℚ` all
orders give the same value). -/
def integrateCritN (N T : ℕ) (a b : ℚ) (f : ℚ → ℚ) : ℚ :=
  let dx := (b - a) / (N : ℚ)
  (∑ t in Finset.range T, stridedFold (fun i R => R + f ((i : ℚ) * dx + a)) N T t 0) * dx

/-- integrateCrit at `N = STEPS`. -/
def integrateCrit (T : ℕ) (a b : ℚ) (f : ℚ → ℚ) : ℚ := integrateCritN STEPS T a b f

/-- integrateMutex: `T` spawned `std::thread`s, worker `t` accumulates
`R += f(i*dx + a)` over its strided indices and adds `R` into `result` under a
`std::mutex` (`scoped_lock`); combine order modelled as worker order. -/
def integrateMutexN (N T : ℕ) (a b : ℚ) (f : ℚ → ℚ) : ℚ :=
  let dx := (b - a) / (N : ℚ)
  (∑ t in Finset.range T, stridedFold (fun i R => R + f ((i : ℚ) * dx + a)) N T t 0) * dx

/-- integrateMutex at `N = STEPS`. -/
def integrateMutex (T : ℕ) (a b : ℚ) (f : ℚ → ℚ) : ℚ := integrateMutexN STEPS T a b f

/-- integrateArr: worker `t` accumulates `accum[t] += f(dx*i + a)` into its own
slot of a `calloc`-ed array (initially zero); after the join the main thread
runs `for (i = 0; i < T; ++i) result += accum[i]`. -/
def integrateArrN (N T : ℕ) (a b : ℚ) (f : ℚ → ℚ) : ℚ :=
  let dx := (b - a) / (N : ℚ)
  (∑ t in Finset.range T, stridedFold (fun i acc => acc + f (dx * (i : ℚ) + a)) N T t 0) * dx

/-- integrateArr at `N = STEPS`. -/
def integrateArr (T : ℕ) (a b : ℚ) (f : ℚ → ℚ) : ℚ := integrateArrN STEPS T a b f

/-- integrateArrAlign: same loop structure as integrateArr, with the slots
`accum[t].val` living in cache-line-aligned `partialSumT` records
(zeroed by `memset`); the layout does not change the computed value. -/
def integrateArrAlignN (N T : ℕ) (a b : ℚ) (f : ℚ → ℚ) : ℚ :=
  let dx := (b - a) / (N : ℚ)
  (∑ t in Finset.range T, stridedFold (fun i acc => acc + f (dx * (i : ℚ) + a)) N T t 0) * dx

/-- integrateArrAlign at `N = STEPS`. -/
def integrateArrAlign (T : ℕ) (a b : ℚ) (f : ℚ → ℚ) : ℚ := integrateArrAlignN STEPS T a b f

/-- integrateReduction: `#pragma omp parallel for reduction(+: result)` over
`result += f(dx*i + a)` for `i = 0 … N-1`.  The OpenMP runtime partitions the
range, sums private copies, and combines them in an unspecified order; over `ℚ`
this is the plain sum of all `N` addends. -/
def integrateReductionN (N : ℕ) (a b : ℚ) (f : ℚ → ℚ) : ℚ :=
  let dx := (b - a) / (N : ℚ)
  (∑ i in Finset.range N, f (dx * (i : ℚ) + a)) * dx

/-- integrateReduction at `N = STEPS`. -/
def integrateReduction (a b : ℚ) (f : ℚ → ℚ) : ℚ := integrateReductionN STEPS a b f

/-- integratePS: per-worker slots `vec[t].val += f(dx*i + a)`; workers
`t = 1 … T-1` run in spawned threads and worker `0` on the calling thread;
after the joins, `for (elem : vec) result += elem.val`. -/
def integratePSN (N T : ℕ) (a b : ℚ) (f : ℚ → ℚ) : ℚ :=
  let dx := (b - a) / (N : ℚ)
  (∑ t in Finset.range T, stridedFold (fun i acc => acc + f (dx * (i : ℚ) + a)) N T t 0) * dx

/-- integratePS at `N = STEPS`. -/
def integratePS (T : ℕ) (a b : ℚ) (f : ℚ → ℚ) : ℚ := integratePSN STEPS T a b f

/-- integrateAtomic: worker `t` accumulates `R += f(i*dx + a)` privately and
adds it into `std::atomic<double> result` with one atomic add; workers
`t = 1 … T-1` in spawned threads, worker `0` on the calling thread. -/
def integrateAtomicN (N T : ℕ) (a b : ℚ) (f : ℚ → ℚ) : ℚ :=
  let dx := (b - a) / (N : ℚ)
  (∑ t in Finset.range T, stridedFold (fun i R => R + f ((i : ℚ) * dx + a)) N T t 0) * dx

/-- integrateAtomic at `N = STEPS`. -/
def integrateAtomic (T : ℕ) (a b : ℚ) (f : ℚ → ℚ) : ℚ := integrateAtomicN STEPS T a b f

/-- Number of std::thread objects created by integratePS
(`for (auto t = 1; t < T; t++) threadVec.emplace_back(threadProc, t)`). -/
def spawnCountPS (T : ℕ) : ℕ := T - 1

/-- Number of std::thread objects created by integrateAtomic
(`for (unsigned t = 1; t < T; ++t) threads.emplace_back(fun, t)`). -/
def spawnCountAtomic (T : ℕ) : ℕ := T - 1

/-- Number of std::thread objects created by integrateMutex
(`for (unsigned t = 0; t < T; t++) threads.emplace_back(…)`). -/
def spawnCountMutex (T : ℕ) : ℕ := T

theorem integrateDefaultN_eq_sum (N : ℕ) (a b : ℚ) (F : ℚ → ℚ) :
    integrateDefaultN N a b F
      = (∑ i in Finset.range N, F ((i : ℚ) * ((b - a) / (N : ℚ)) + a)) * ((b - a) / (N : ℚ)) := by
  show seqFold _ N 0 0 * _ = _
  rw [seqFold_sum (fun i => F ((i : ℚ) * ((b - a) / (N : ℚ)) + a)) N 0, zero_add]

theorem sum_comm_muls (N : ℕ) (a dx : ℚ) (F : ℚ → ℚ) :
    ∑ i in Finset.range N, F (dx * (i : ℚ) + a) = ∑ i in Finset.range N, F ((i : ℚ) * dx + a) := by
  refine Finset.sum_congr rfl ?_
  intro i _
  rw [mul_comm]

theorem integrateCritN_eq_default (N T : ℕ) (hT : 0 < T) (a b : ℚ) (F : ℚ → ℚ) :
    integrateCritN N T a b F = integrateDefaultN N a b F := by
  rw [integrateDefaultN_eq_sum]
  show (∑ t in Finset.range T, stridedFold _ N T t 0) * _ = _
  rw [sum_stridedFold (fun i => F ((i : ℚ) * ((b - a) / (N : ℚ)) + a)) N hT]

theorem integrateMutexN_eq_default (N T : ℕ) (hT : 0 < T) (a b : ℚ) (F : ℚ → ℚ) :
    integrateMutexN N T a b F = integrateDefaultN N a b F := by
  rw [integrateDefaultN_eq_sum]
  show (∑ t in Finset.range T, stridedFold _ N T t 0) * _ = _
  rw [sum_stridedFold (fun i => F ((i : ℚ) * ((b - a) / (N : ℚ)) + a)) N hT]

theorem integrateArrN_eq_default (N T : ℕ) (hT : 0 < T) (a b : ℚ) (F : ℚ → ℚ) :
    integrateArrN N T a b F = integrateDefaultN N a b F := by
  rw [integrateDefaultN_eq_sum]
  show (∑ t in Finset.range T, stridedFold _ N T t 0) * _ = _
  rw [sum_stridedFold (fun i => F (((b - a) / (N : ℚ)) * (i : ℚ) + a)) N hT,
    sum_comm_muls]

theorem integrateArrAlignN_eq_default (N T : ℕ) (hT : 0 < T) (a b : ℚ) (F : ℚ → ℚ) :
    integrateArrAlignN N T a b F = integrateDefaultN N a b F := by
  rw [integrateDefaultN_eq_sum]
  show (∑ t in Finset.range T, stridedFold _ N T t 0) * _ = _
  rw [sum_stridedFold (fun i => F (((b - a) / (N : ℚ)) * (i : ℚ) + a)) N hT,
    sum_comm_muls]

theorem integratePSN_eq_default (N T : ℕ) (hT : 0 < T) (a b : ℚ) (F : ℚ → ℚ) :
    integratePSN N T a b F = integrateDefaultN N a b F := by
  rw [integrateDefaultN_eq_sum]
  show (∑ t in Finset.range T, stridedFold _ N T t 0) * _ = _
  rw [sum_stridedFold (fun i => F (((b - a) / (N : ℚ)) * (i : ℚ) + a)) N hT,
    sum_comm_muls]

theorem integrateAtomicN_eq_default (N T : ℕ) (hT : 0 < T) (a b : ℚ) (F : ℚ → ℚ) :
    integrateAtomicN N T a b F = integrateDefaultN N a b F := by
  rw [integrateDefaultN_eq_sum]
  show (∑ t in Finset.range T, stridedFold _ N T t 0) * _ = _
  rw [sum_stridedFold (fun i => F ((i : ℚ) * ((b - a) / (N : ℚ)) + a)) N hT]

theorem integrateReductionN_eq_default (N : ℕ) (a b : ℚ) (F : ℚ → ℚ) :
    integrateReductionN N a b F = integrateDefaultN N a b F := by
  rw [integrateDefaultN_eq_sum]
  show (∑ i in Finset.range N, F _) * _ = _
  rw [sum_comm_muls]


/-- Size of worker `t`'s strided index set: `N / T` plus one extra for the
first `N % T` workers. -/
theorem workerSet_card (T : ℕ) (hT : 0 < T) {t : ℕ} (ht : t < T) :
    ∀ N, (workerSet N T t).card = N / T + if t < N % T then 1 else 0 := by
  intro N
  induction N with
  | zero =>
    simp [workerSet]
  | succ N ih =>
    have hsplit : workerSet (N + 1) T t
        = if N % T = t then insert N (workerSet N T t) else workerSet N T t := by
      rw [workerSet, workerSet, Finset.range_succ, Finset.filter_insert]
    have hnotmem : N ∉ workerSet N T t := by
      intro hmem
      have := Finset.mem_range.mp (Finset.mem_filter.mp hmem).1
      omega
    have hdm := Nat.div_add_mod N T
    have hmlt : N % T < T := Nat.mod_lt N hT
    have hsd := Nat.succ_div N T
    by_cases hc : N % T + 1 = T
    · have hdvd : T ∣ N + 1 := by
        refine ⟨N / T + 1, ?_⟩
        rw [Nat.mul_succ]
        omega
      have hm1 : (N + 1) % T = 0 := Nat.dvd_iff_mod_eq_zero.mp hdvd
      rw [if_pos hdvd] at hsd
      rw [hsplit]
      by_cases he : N % T = t
      · rw [if_pos he, Finset.card_insert_of_not_mem hnotmem, ih, hsd, hm1]
        simp only [if_neg (by omega : ¬ t < N % T), if_neg (by omega : ¬ t < 0)]
      · rw [if_neg he, ih, hsd, hm1]
        simp only [if_pos (by omega : t < N % T), if_neg (by omega : ¬ t < 0)]
    · have hrw : N + 1 = (N % T + 1) + T * (N / T) := by omega
      have hm1 : (N + 1) % T = N % T + 1 := by
        rw [hrw, Nat.add_mul_mod_self_left]
        exact Nat.mod_eq_of_lt (by omega)
      have hndvd : ¬ T ∣ N + 1 := by
        rw [Nat.dvd_iff_mod_eq_zero, hm1]
        omega
      rw [if_neg hndvd] at hsd
      rw [hsplit]
      by_cases he : N % T = t
      · rw [if_pos he, Finset.card_insert_of_not_mem hnotmem, ih, hsd, hm1]
        simp only [if_neg (by omega : ¬ t < N % T), if_pos (by omega : t < N % T + 1)]
      · rw [if_neg he, ih, hsd, hm1]
        by_cases hlt : t < N % T
        · simp only [if_pos hlt, if_pos (by omega : t < N % T + 1)]
        · simp only [if_neg hlt, if_neg (by omega : ¬ t < N % T + 1)]

/-- The ceiling `⌈N/T⌉ = (N + T - 1) / T` equals `N / T` when `T` divides `N`
and `N / T + 1` otherwise. -/
theorem ceilDiv_eq (N T : ℕ) (hT : 0 < T) :
    (N + T - 1) / T = N / T + if N % T = 0 then 0 else 1 := by
  have hdm := Nat.div_add_mod N T
  have hmlt : N % T < T := Nat.mod_lt N hT
  by_cases hr : N % T = 0
  · rw [if_pos hr]
    have hrw : N + T - 1 = (T - 1) + T * (N / T) := by omega
    rw [hrw, Nat.add_mul_div_left _ _ hT, Nat.div_eq_of_lt (by omega), Nat.zero_add]
    omega
  · rw [if_neg hr]
    have hrw : N + T - 1 = (N % T - 1) + T * (N / T + 1) := by
      rw [Nat.mul_succ]
      omega
    rw [hrw, Nat.add_mul_div_left _ _ hT, Nat.div_eq_of_lt (by omega), Nat.zero_add]

/-- C1: for every worker count `T ≥ 1` and sample count `N ≥ 1`, the strided
partition used by every strategy (worker `t` iterates `i = t, t+T, t+2T, …`
while `i < N`, captured by `stridedIdx`) assigns each index of `{0, …, N-1}`
to exactly one worker: the loop of worker `t` visits exactly `workerSet N T t`,
the `T` sets are pairwise disjoint, their union is `{0, …, N-1}`, each has
`⌊N/T⌋` or `⌈N/T⌉` elements, and any two sizes differ by at most one. -/
theorem strided_partition_spec (N T : ℕ) (hT : 1 ≤ T) (hN : 1 ≤ N) :
    (∀ t, t < T → (stridedIdx N T t).toFinset = workerSet N T t)
  ∧ (∀ t1 t2, t1 < T → t2 < T → t1 ≠ t2 → Disjoint (workerSet N T t1) (workerSet N T t2))
  ∧ (Finset.range T).biUnion (workerSet N T) = Finset.range N
  ∧ (∀ t, t < T → (workerSet N T t).card = N / T ∨ (workerSet N T t).card = (N + T - 1) / T)
  ∧ (∀ t1 t2, t1 < T → t2 < T →
      (workerSet N T t1).card ≤ (workerSet N T t2).card + 1) := by
  have hT0 : 0 < T := hT
  refine ⟨?_, ?_, ?_, ?_, ?_⟩
  · intro t ht
    exact stridedIdx_toFinset hT0 ht
  · intro t1 t2 _ _ hne
    rw [Finset.disjoint_left]
    intro i hi1 hi2
    have h1 := (Finset.mem_filter.mp hi1).2
    have h2 := (Finset.mem_filter.mp hi2).2
    exact hne (h1 ▸ h2 ▸ rfl)
  · ext i
    rw [Finset.mem_biUnion]
    constructor
    · rintro ⟨t, _, hi⟩
      exact (Finset.mem_filter.mp hi).1
    · intro hi
      refine ⟨i % T, Finset.mem_range.mpr (Nat.mod_lt i hT0), ?_⟩
      exact Finset.mem_filter.mpr ⟨hi, rfl⟩
  · intro t ht
    rw [workerSet_card T hT0 ht, ceilDiv_eq N T hT0]
    have hmlt : N % T < T := Nat.mod_lt N hT0
    by_cases hlt : t < N % T
    · right
      rw [if_pos hlt, if_neg (by omega : ¬ N % T = 0)]
    · left
      rw [if_neg hlt]
      omega
  · intro t1 t2 h1 h2
    rw [workerSet_card T hT0 h1, workerSet_card T hT0 h2]
    by_cases ha : t1 < N % T <;> by_cases hb : t2 < N % T <;>
      simp only [ha, hb, if_true, if_false] <;> omega

/-- Witness for C1 at `N = 5`, `T = 3`. -/
theorem strided_partition_spec_witness :
    1 ≤ 3 ∧ 1 ≤ 5 ∧
    ((∀ t, t < 3 → (stridedIdx 5 3 t).toFinset = workerSet 5 3 t)
  ∧ (∀ t1 t2, t1 < 3 → t2 < 3 → t1 ≠ t2 → Disjoint (workerSet 5 3 t1) (workerSet 5 3 t2))
  ∧ (Finset.range 3).biUnion (workerSet 5 3) = Finset.range 5
  ∧ (∀ t, t < 3 → (workerSet 5 3 t).card = 5 / 3 ∨ (workerSet 5 3 t).card = (5 + 3 - 1) / 3)
  ∧ (∀ t1 t2, t1 < 3 → t2 < 3 →
      (workerSet 5 3 t1).card ≤ (workerSet 5 3 t2).card + 1)) :=
  ⟨by decide, by decide, strided_partition_spec 5 3 (by decide) (by decide)⟩

/-- C2: for a fixed integrand, fixed bounds and the fixed sample count
`N = STEPS`, every strategy returns, in exact arithmetic, the same value as
the single-threaded `integrateDefault`, for every worker count `T ≥ 1`: each
strategy merely re-groups the same `N` addends. -/
theorem strategies_agree_exact (T : ℕ) (a b : ℚ) (F : ℚ → ℚ) (hT : 1 ≤ T) :
    integrateCrit T a b F = integrateDefault a b F
  ∧ integrateMutex T a b F = integrateDefault a b F
  ∧ integrateArr T a b F = integrateDefault a b F
  ∧ integrateArrAlign T a b F = integrateDefault a b F
  ∧ integrateReduction a b F = integrateDefault a b F
  ∧ integratePS T a b F = integrateDefault a b F
  ∧ integrateAtomic T a b F = integrateDefault a b F := by
  have hT0 : 0 < T := hT
  exact ⟨integrateCritN_eq_default STEPS T hT0 a b F,
    integrateMutexN_eq_default STEPS T hT0 a b F,
    integrateArrN_eq_default STEPS T hT0 a b F,
    integrateArrAlignN_eq_default STEPS T hT0 a b F,
    integrateReductionN_eq_default STEPS a b F,
    integratePSN_eq_default STEPS T hT0 a b F,
    integrateAtomicN_eq_default STEPS T hT0 a b F⟩

/-- Witness for C2 at `T = 4`, bounds `(-1, 1)`, integrand `f`. -/
theorem strategies_agree_exact_witness :
    1 ≤ 4 ∧
    (integrateCrit 4 (-1) 1 f = integrateDefault (-1) 1 f
  ∧ integrateMutex 4 (-1) 1 f = integrateDefault (-1) 1 f
  ∧ integrateArr 4 (-1) 1 f = integrateDefault (-1) 1 f
  ∧ integrateArrAlign 4 (-1) 1 f = integrateDefault (-1) 1 f
  ∧ integrateReduction (-1) 1 f = integrateDefault (-1) 1 f
  ∧ integratePS 4 (-1) 1 f = integrateDefault (-1) 1 f
  ∧ integrateAtomic 4 (-1) 1 f = integrateDefault (-1) 1 f) :=
  ⟨by decide, strategies_agree_exact 4 (-1) 1 f (by decide)⟩

theorem integrateDefaultN_eq_sum_left (N : ℕ) (a b : ℚ) (F : ℚ → ℚ) :
    integrateDefaultN N a b F
      = (∑ i in Finset.range N, F (a + (i : ℚ) * ((b - a) / (N : ℚ)))) * ((b - a) / (N : ℚ)) := by
  rw [integrateDefaultN_eq_sum]
  congr 1
  refine Finset.sum_congr rfl ?_
  intro i _
  rw [add_comm]

/-- C3: every integrator evaluates the integrand at exactly the `N` sample
points `a + i*dx` (`i = 0 … N-1`, `dx = (b-a)/N`) and returns the sum of those
`N` values multiplied by `dx` — a left-endpoint Riemann sum; and no strided
worker loop ever visits an index outside `[0, N)`. -/
theorem riemann_sum_spec (N T : ℕ) (a b : ℚ) (F : ℚ → ℚ) (hT : 1 ≤ T) :
    (integrateDefaultN N a b F
      = (∑ i in Finset.range N, F (a + (i : ℚ) * ((b - a) / (N : ℚ)))) * ((b - a) / (N : ℚ)))
  ∧ integrateCritN N T a b F = integrateDefaultN N a b F
  ∧ integrateMutexN N T a b F = integrateDefaultN N a b F
  ∧ integrateArrN N T a b F = integrateDefaultN N a b F
  ∧ integrateArrAlignN N T a b F = integrateDefaultN N a b F
  ∧ integrateReductionN N a b F = integrateDefaultN N a b F
  ∧ integratePSN N T a b F = integrateDefaultN N a b F
  ∧ integrateAtomicN N T a b F = integrateDefaultN N a b F
  ∧ (∀ s i, i ∈ stridedIdx N T s → i < N) := by
  have hT0 : 0 < T := hT
  refine ⟨integrateDefaultN_eq_sum_left N a b F,
    integrateCritN_eq_default N T hT0 a b F,
    integrateMutexN_eq_default N T hT0 a b F,
    integrateArrN_eq_default N T hT0 a b F,
    integrateArrAlignN_eq_default N T hT0 a b F,
    integrateReductionN_eq_default N a b F,
    integratePSN_eq_default N T hT0 a b F,
    integrateAtomicN_eq_default N T hT0 a b F, ?_⟩
  intro s i hi
  exact ((mem_stridedIdx hT0 s i).mp hi).1

/-- Witness for C3 at `N = 7`, `T = 2`, bounds `(-1, 1)`, integrand `f`. -/
theorem riemann_sum_spec_witness :
    1 ≤ 2 ∧
    ((integrateDefaultN 7 (-1) 1 f
      = (∑ i in Finset.range 7, f (-1 + (i : ℚ) * ((1 - -1) / (7 : ℚ)))) * ((1 - -1) / (7 : ℚ)))
  ∧ integrateCritN 7 2 (-1) 1 f = integrateDefaultN 7 (-1) 1 f
  ∧ integrateMutexN 7 2 (-1) 1 f = integrateDefaultN 7 (-1) 1 f
  ∧ integrateArrN 7 2 (-1) 1 f = integrateDefaultN 7 (-1) 1 f
  ∧ integrateArrAlignN 7 2 (-1) 1 f = integrateDefaultN 7 (-1) 1 f
  ∧ integrateReductionN 7 (-1) 1 f = integrateDefaultN 7 (-1) 1 f
  ∧ integratePSN 7 2 (-1) 1 f = integrateDefaultN 7 (-1) 1 f
  ∧ integrateAtomicN 7 2 (-1) 1 f = integrateDefaultN 7 (-1) 1 f
  ∧ (∀ s i, i ∈ stridedIdx 7 2 s → i < 7)) :=
  ⟨by decide, riemann_sum_spec 7 2 (-1) 1 f (by decide)⟩

theorem sum_range_id_q (N : ℕ) :
    (∑ i in Finset.range N, (i : ℚ)) = N * (N - 1) / 2 := by
  induction N with
  | zero => simp
  | succ N ih =>
    rw [Finset.sum_range_succ, ih]
    push_cast
    ring

theorem sum_range_sq_q (N : ℕ) :
    (∑ i in Finset.range N, (i : ℚ) ^ 2) = N * (N - 1) * (2 * N - 1) / 6 := by
  induction N with
  | zero => simp
  | succ N ih =>
    rw [Finset.sum_range_succ, ih]
    push_cast
    ring

/-- Closed form of the left-endpoint Riemann sum of `x ↦ x²` on `[-1, 1]`:
the exact value is `2/3 + 4/(3N²)`. -/
theorem integrateDefaultN_parabola (N : ℕ) (hN : 0 < N) :
    integrateDefaultN N (-1) 1 f = 2 / 3 + 4 / (3 * (N : ℚ) ^ 2) := by
  have hQ : (N : ℚ) ≠ 0 := Nat.cast_ne_zero.mpr (by omega)
  rw [integrateDefaultN_eq_sum]
  have hterm : ∀ i : ℕ,
      f ((i : ℚ) * ((1 - -1) / (N : ℚ)) + -1)
        = ((2 / (N : ℚ)) ^ 2) * (i : ℚ) ^ 2 - (2 * (2 / (N : ℚ))) * (i : ℚ) + 1 := by
    intro i
    show ((i : ℚ) * ((1 - -1) / (N : ℚ)) + -1) * ((i : ℚ) * ((1 - -1) / (N : ℚ)) + -1) = _
    ring
  rw [Finset.sum_congr rfl (fun i _ => hterm i)]
  rw [Finset.sum_add_distrib, Finset.sum_sub_distrib, ← Finset.mul_sum, ← Finset.mul_sum,
    sum_range_sq_q, sum_range_id_q, Finset.sum_const, Finset.card_range, nsmul_eq_mul,
    mul_one]
  field_simp
  ring

/-- C8: with integrand `f(x) = x²`, bounds `[-1, 1]` and `N = STEPS = 10⁸`
samples, every strategy (and sequential `integrateDefault`) returns a value
within `10⁻⁶` of the closed-form integral `2/3` — in the exact-arithmetic
model the common value is `2/3 + 4/(3·10¹⁶)`, off by only `1.34·10⁻¹⁷`. -/
theorem scenario_parabola_tolerance (T : ℕ) (hT : 1 ≤ T) :
    |integrateDefault (-1) 1 f - 2 / 3| ≤ 1 / 1000000
  ∧ |integrateCrit T (-1) 1 f - 2 / 3| ≤ 1 / 1000000
  ∧ |integrateMutex T (-1) 1 f - 2 / 3| ≤ 1 / 1000000
  ∧ |integrateArr T (-1) 1 f - 2 / 3| ≤ 1 / 1000000
  ∧ |integrateArrAlign T (-1) 1 f - 2 / 3| ≤ 1 / 1000000
  ∧ |integrateReduction (-1) 1 f - 2 / 3| ≤ 1 / 1000000
  ∧ |integratePS T (-1) 1 f - 2 / 3| ≤ 1 / 1000000
  ∧ |integrateAtomic T (-1) 1 f - 2 / 3| ≤ 1 / 1000000 := by
  have hT0 : 0 < T := hT
  have hd : integrateDefault (-1) 1 f = 2 / 3 + 4 / (3 * (STEPS : ℚ) ^ 2) :=
    integrateDefaultN_parabola STEPS (by rw [STEPS]; omega)
  have hb : |integrateDefault (-1) 1 f - 2 / 3| ≤ 1 / 1000000 := by
    rw [hd, STEPS]
    rw [show (2 / 3 + 4 / (3 * ((100000000 : ℕ) : ℚ) ^ 2) - 2 / 3) = 1 / 7500000000000000 by norm_num]
    rw [abs_of_nonneg (by norm_num)]
    norm_num
  refine ⟨hb, ?_, ?_, ?_, ?_, ?_, ?_, ?_⟩
  · rw [integrateCrit, integrateCritN_eq_default STEPS T hT0]
    exact hb
  · rw [integrateMutex, integrateMutexN_eq_default STEPS T hT0]
    exact hb
  · rw [integrateArr, integrateArrN_eq_default STEPS T hT0]
    exact hb
  · rw [integrateArrAlign, integrateArrAlignN_eq_default STEPS T hT0]
    exact hb
  · rw [integrateReduction, integrateReductionN_eq_default STEPS]
    exact hb
  · rw [integratePS, integratePSN_eq_default STEPS T hT0]
    exact hb
  · rw [integrateAtomic, integrateAtomicN_eq_default STEPS T hT0]
    exact hb

/-- Witness for C8 at `T = 2`. -/
theorem scenario_parabola_tolerance_witness :
    1 ≤ 2 ∧
    (|integrateDefault (-1) 1 f - 2 / 3| ≤ 1 / 1000000
  ∧ |integrateCrit 2 (-1) 1 f - 2 / 3| ≤ 1 / 1000000
  ∧ |integrateMutex 2 (-1) 1 f - 2 / 3| ≤ 1 / 1000000
  ∧ |integrateArr 2 (-1) 1 f - 2 / 3| ≤ 1 / 1000000
  ∧ |integrateArrAlign 2 (-1) 1 f - 2 / 3| ≤ 1 / 1000000
  ∧ |integrateReduction (-1) 1 f - 2 / 3| ≤ 1 / 1000000
  ∧ |integratePS 2 (-1) 1 f - 2 / 3| ≤ 1 / 1000000
  ∧ |integrateAtomic 2 (-1) 1 f - 2 / 3| ≤ 1 / 1000000) :=
  ⟨by decide, scenario_parabola_tolerance 2 (by decide)⟩

theorem stridedIdx_one (N : ℕ) : ∀ s, stridedIdx N 1 s = List.range' s (N - s) := by
  have main : ∀ k s, N - s ≤ k → stridedIdx N 1 s = List.range' s (N - s) := by
    intro k
    induction k with
    | zero =>
      intro s hk
      rw [stridedIdx]
      have hs : ¬ s < N := by omega
      rw [show N - s = 0 by omega]
      simp [hs]
    | succ k ih =>
      intro s hk
      by_cases hs : s < N
      · rw [stridedIdx, dif_pos (And.intro Nat.one_pos hs), ih (s + 1) (by omega)]
        rw [show N - s = (N - (s + 1)) + 1 by omega, List.range'_succ]
      · rw [stridedIdx]
        rw [show N - s = 0 by omega]
        simp [hs]
  intro s
  exact main (N - s) s (Nat.le_refl _)

/-- C10: with a worker count of `T = 1`, integratePS and integrateAtomic spawn
zero extra threads and integrateMutex exactly one; the single worker's loop
visits the indices `0, 1, 2, …, N-1` in increasing order and is, for an
arbitrary loop body, the very same fold as `integrateDefault`'s sequential
loop — the identical sequence of operations, hence the identical value (in the
exact model, equality on the nose). -/
theorem single_worker_exact (N : ℕ) (a b : ℚ) (F : ℚ → ℚ) :
    spawnCountPS 1 = 0
  ∧ spawnCountAtomic 1 = 0
  ∧ spawnCountMutex 1 = 1
  ∧ stridedIdx N 1 0 = List.range N
  ∧ (∀ (α : Type) (step : ℕ → α → α) (acc : α),
      stridedFold step N 1 0 acc = seqFold step N 0 acc)
  ∧ integratePSN N 1 a b F = integrateDefaultN N a b F
  ∧ integrateAtomicN N 1 a b F = integrateDefaultN N a b F
  ∧ integrateMutexN N 1 a b F = integrateDefaultN N a b F := by
  refine ⟨rfl, rfl, rfl, ?_, ?_,
    integratePSN_eq_default N 1 Nat.one_pos a b F,
    integrateAtomicN_eq_default N 1 Nat.one_pos a b F,
    integrateMutexN_eq_default N 1 Nat.one_pos a b F⟩
  · rw [stridedIdx_one N 0, Nat.sub_zero, ← List.range_eq_range' N]
  · intro α step acc
    exact stridedFold_one step N 0 acc

/-- Size in bytes of `struct partialSumT { alignas(64) double val; }`: the
64-byte alignment of the member forces `sizeof` up to one full cache line. -/
def sizeofPartialSumT : ℕ := 64

/-- Byte address of slot `i` of the buffer returned by
`aligned_alloc(CACHE_LINE, T * sizeof(partialSumT))` whose base address is
`base` (aligned_alloc guarantees `CACHE_LINE ∣ base`). -/
def slotAddr (base i : ℕ) : ℕ := base + i * sizeofPartialSumT

/-- C7: in integrateArrAlign, for any `T ≥ 1`, every slot occupies a full
cache line (`sizeof(partialSumT) ≥ 64`), every slot's byte address is a
multiple of the cache-line size, and no two distinct slots share any
cache-line-sized address range. -/
theorem padded_slot_layout (T : ℕ) (hT : 1 ≤ T) (base : ℕ) (hb : CACHE_LINE ∣ base) :
    CACHE_LINE ≤ sizeofPartialSumT
  ∧ (∀ i, i < T → CACHE_LINE ∣ slotAddr base i)
  ∧ (∀ i j, i < T → j < T → i ≠ j →
      ∀ x, ¬(slotAddr base i ≤ x ∧ x < slotAddr base i + CACHE_LINE
           ∧ slotAddr base j ≤ x ∧ x < slotAddr base j + CACHE_LINE)) := by
  obtain ⟨k, hk⟩ := hb
  rw [CACHE_LINE] at hk
  refine ⟨by decide, ?_, ?_⟩
  · intro i _
    refine ⟨k + i, ?_⟩
    simp only [slotAddr, sizeofPartialSumT, CACHE_LINE]
    omega
  · intro i j _ _ hne x
    simp only [slotAddr, sizeofPartialSumT, CACHE_LINE]
    omega

/-- Witness for C7 at `T = 2`, `base = 128`. -/
theorem padded_slot_layout_witness :
    1 ≤ 2 ∧ CACHE_LINE ∣ 128 ∧
    (CACHE_LINE ≤ sizeofPartialSumT
  ∧ (∀ i, i < 2 → CACHE_LINE ∣ slotAddr 128 i)
  ∧ (∀ i j, i < 2 → j < 2 → i ≠ j →
      ∀ x, ¬(slotAddr 128 i ≤ x ∧ x < slotAddr 128 i + CACHE_LINE
           ∧ slotAddr 128 j ≤ x ∧ x < slotAddr 128 j + CACHE_LINE))) :=
  ⟨by decide, by decide, padded_slot_layout 2 (by decide) 128 (by decide)⟩

/-- Rows printed by `showExperimentResults` in main.cpp, one `(result, time,
acceleration)` triple per worker count.  The per-`T` elapsed times and result
values are oracles (`times`, `results`): timing is an out-of-scope collaborator
(§6).  The model records the driver's control flow: the `T = 1` run happens
first, its time `T1` is stored, and every printed row — the `T = 1` row and the
rows of the loop `for (T = 2; T <= P; ++T)` — shows `T1 / times T`. -/
def showExperimentResults (results times : ℕ → ℚ) (P : ℕ) : List (ℚ × ℚ × ℚ) :=
  let T1 := times 1
  (results 1, times 1, T1 / times 1)
    :: (List.range (P - 1)).map (fun k => (results (k + 2), times (k + 2), T1 / times (k + 2)))

/-- Counterexample for C6 as stated: with elapsed times `times T = T`, the row
the driver prints for `T = 2` carries the acceleration
`times 1 / times 2 = 1/2`.  The stored `T = 1` time is the fixed *numerator*
of every reported speedup; were it the "fixed denominator", the `T = 2` row
would read `times 2 / times 1 = 2 ≠ 1/2`. -/
theorem speedup_denominator_counterexample :
    showExperimentResults (fun _ => (0 : ℚ)) (fun T => (T : ℚ)) 2
      = [(0, 1, 1), (0, 2, 1 / 2)]
  ∧ ((1 : ℚ) / 2 ≠ (2 : ℚ) / 1) := by
  constructor
  · simp only [showExperimentResults]
    norm_num [List.range_succ]
  · norm_num

/-- C6 (amended): the Benchmark Driver runs `T = 1` first and stores its
elapsed time; every subsequent `T` up to the hardware parallelism `P` is
reported with `speedup(T) = elapsedTime(T=1) / elapsedTime(T)`, the stored
`T = 1` time being the fixed numerator within one strategy's sweep; the
reported speedup for `T = 1` is exactly `1`. -/
theorem speedup_rows_spec (results times : ℕ → ℚ) (P : ℕ) (h1 : times 1 ≠ 0) :
    showExperimentResults results times P
      = (results 1, times 1, 1)
        :: (List.range (P - 1)).map
            (fun k => (results (k + 2), times (k + 2), times 1 / times (k + 2)))
  ∧ (showExperimentResults results times P).head? = some (results 1, times 1, 1) := by
  simp only [showExperimentResults]
  rw [div_self h1]
  exact ⟨rfl, rfl⟩

/-- Concrete timing oracle for the C6 witness: run at thread count `T` takes
`T` time units. -/
def demoTimes (T : ℕ) : ℚ := T

/-- Concrete result oracle for the C6 witness. -/
def demoResults (_ : ℕ) : ℚ := 0

/-- Witness for C6 (amended) at `P = 3`. -/
theorem speedup_rows_spec_witness :
    demoTimes 1 ≠ 0 ∧
    (showExperimentResults demoResults demoTimes 3
      = (demoResults 1, demoTimes 1, 1)
        :: (List.range (3 - 1)).map
            (fun k => (demoResults (k + 2), demoTimes (k + 2), demoTimes 1 / demoTimes (k + 2)))
  ∧ (showExperimentResults demoResults demoTimes 3).head?
      = some (demoResults 1, demoTimes 1, 1)) :=
  ⟨by decide, speedup_rows_spec demoResults demoTimes 3 (by decide)⟩

/-- C4 evidence: with configured worker count `T = 0`, integrateMutex's spawn
loop `for (t = 0; t < T; t++)` runs zero times — no thread is spawned, no
rejection happens, and the call falls through to `return result * dx`,
handing the caller the numeric value `0` (the empty combine times `dx`)
instead of failing fast. -/
theorem mutex_T0_returns_numeric :
    integrateMutex 0 (-1) 1 f = 0 ∧ spawnCountMutex 0 = 0 := by
  constructor
  · show integrateMutexN STEPS 0 (-1) 1 f = 0
    simp [integrateMutexN]
  · rfl

/-- Memory fault raised by the model when a load or store goes through a
failed allocation. -/
inductive MemError : Type
  | unallocated : MemError

/-- Store `accum[t] += v` of integrateArr, with the buffer modelled explicitly:
`none` stands for the null pointer `calloc` returns on failure.  The C++ code
performs the store unconditionally — it never tests the `calloc` result — so
on a failed allocation the store goes through the null pointer; the model
traps that access as `MemError.unallocated` (in C++ it is undefined
behaviour, not a guaranteed clean failure). -/
def arrStoreAdd (buf : Option (List ℚ)) (t : ℕ) (v : ℚ) :
    Except MemError (Option (List ℚ)) :=
  match buf with
  | none => Except.error MemError.unallocated
  | some l =>
    if t < l.length then Except.ok (some (l.set t (l.get! t + v)))
    else Except.error MemError.unallocated

/-- Worker `t` of integrateArr: `for (i = t; i < N; i += T) accum[t] += g i`,
acting on the shared buffer. -/
def arrWorker (g : ℕ → ℚ) (N T t : ℕ) (buf : Option (List ℚ)) :
    Except MemError (Option (List ℚ)) :=
  stridedFold (fun i e => e >>= fun bf => arrStoreAdd bf t (g i)) N T t (Except.ok buf)

/-- Sequential composition of the `T` workers of integrateArr.  The real
workers run concurrently, but each touches only its own slot `accum[t]`, so
any interleaving is equivalent to this linearization. -/
def arrWorkers (g : ℕ → ℚ) (N T : ℕ) : ℕ → Option (List ℚ) → Except MemError (Option (List ℚ))
  | t, buf =>
    if h : t < T then
      match arrWorker g N T t buf with
      | Except.error e => Except.error e
      | Except.ok buf2 => arrWorkers g N T (t + 1) buf2
    else Except.ok buf
termination_by t => T - t
decreasing_by omega

/-- Final read-back loop of integrateArr:
`for (i = 0; i < T; ++i) result += accum[i]` — again through the possibly
null pointer. -/
def arrCombine (buf : Option (List ℚ)) (T : ℕ) : Except MemError ℚ :=
  match buf with
  | none => Except.error MemError.unallocated
  | some l =>
    if T ≤ l.length then Except.ok (((List.range T).map (fun i => l.get! i)).sum)
    else Except.error MemError.unallocated

/-- integrateArr with the accumulator buffer and its allocation made explicit:
`allocOk = false` models `calloc` returning null inside the parallel region. -/
def integrateArrMem (N T : ℕ) (a b : ℚ) (f : ℚ → ℚ) (allocOk : Bool) :
    Except MemError ℚ :=
  let dx := (b - a) / (N : ℚ)
  let buf0 : Option (List ℚ) :=
    match allocOk with
    | true => some (List.replicate T 0)
    | false => none
  match arrWorkers (fun i => f (dx * (i : ℚ) + a)) N T 0 buf0 with
  | Except.error e => Except.error e
  | Except.ok buf =>
    match arrCombine buf T with
    | Except.error e => Except.error e
    | Except.ok s => Except.ok (s * dx)

theorem except_stridedFold_error
    (st : ℕ → Option (List ℚ) → Except MemError (Option (List ℚ))) (N T : ℕ) :
    ∀ s e, stridedFold (fun i x => x >>= st i) N T s (Except.error e) = Except.error e := by
  have main : ∀ k s e, N - s ≤ k →
      stridedFold (fun i x => x >>= st i) N T s (Except.error e) = Except.error e := by
    intro k
    induction k with
    | zero =>
      intro s e hk
      rw [stridedFold]
      have hs : ¬ s < N := by omega
      simp [hs]
    | succ k ih =>
      intro s e hk
      by_cases h : 0 < T ∧ s < N
      · rw [stridedFold, dif_pos h]
        exact ih (s + T) e (by omega)
      · rw [stridedFold, dif_neg h]
  intro s e
  exact main (N - s) s e (Nat.le_refl _)

/-- When the allocation failed, a worker's first store already faults. -/
theorem arrWorker_alloc_failure (g : ℕ → ℚ) (N T t : ℕ) (hT : 0 < T) (ht : t < N) :
    arrWorker g N T t none = Except.error MemError.unallocated := by
  rw [arrWorker, stridedFold, dif_pos (And.intro hT ht)]
  show stridedFold _ N T (t + T) (Except.error MemError.unallocated) = _
  exact except_stridedFold_error _ N T (t + T) MemError.unallocated

/-- C5 evidence: on allocation failure (`calloc` returns null inside the
parallel region), the very first store `accum[0] += f(dx*0 + a)` already goes
through the unallocated buffer — the workers do compute into unallocated
memory (undefined behaviour in C++) — because integrateArr never checks the
`calloc` result before using `accum`; nothing in the code detects or reports
the failure. -/
theorem integrateArr_alloc_failure_faults (N T : ℕ) (a b : ℚ) (F : ℚ → ℚ)
    (hT : 0 < T) (hN : 0 < N) :
    integrateArrMem N T a b F false = Except.error MemError.unallocated := by
  have h0 : arrWorkers (fun i => F (((b - a) / (N : ℚ)) * (i : ℚ) + a)) N T 0 none
      = Except.error MemError.unallocated := by
    rw [arrWorkers, dif_pos hT, arrWorker_alloc_failure _ _ _ _ hT hN]
  show (match arrWorkers (fun i => F (((b - a) / (N : ℚ)) * (i : ℚ) + a)) N T 0 none with
    | Except.error e => Except.error e
    | Except.ok buf =>
      match arrCombine buf T with
      | Except.error e => Except.error e
      | Except.ok s => Except.ok (s * ((b - a) / (N : ℚ)))) = Except.error MemError.unallocated
  rw [h0]

/-- Witness for the C5 evidence theorem at `N = 10`, `T = 2`. -/
theorem integrateArr_alloc_failure_faults_witness :
    0 < 2 ∧ 0 < 10 ∧
    integrateArrMem 10 2 (-1) 1 f false = Except.error MemError.unallocated :=
  ⟨by decide, by decide, integrateArr_alloc_failure_faults 10 2 (-1) 1 f (by decide) (by decide)⟩

/-- Modulus of `uint64_t` arithmetic. -/
def M64 : ℕ := 2 ^ 64

/-- Multiplier `a = 6364136223846793005` of the linear congruential generator
in randomize_arr_single / randomize_arr_fs. -/
def lcgA : ℕ := 6364136223846793005

/-- Increment `b = 1` of the generator. -/
def lcgB : ℕ := 1

/-- SEED constant (`#define SEED 100`). -/
def SEED : ℕ := 100

/-- MIN constant (`#define MIN 1`). -/
def MIN : ℕ := 1

/-- MAX constant (`#define MAX 300`). -/
def MAX : ℕ := 300

/-- Bounds-checked read of a heap buffer modelled as a list of `uint64_t`
cells; `none` is an out-of-bounds access (undefined behaviour in C++). -/
def heapGet (h : List ℕ) (i : ℕ) : Option ℕ := h.get? i

/-- Bounds-checked write to a heap buffer; `none` is an out-of-bounds write. -/
def heapSet (h : List ℕ) (i v : ℕ) : Option (List ℕ) :=
  if i < h.length then some (h.set i v) else none

/-- randomize_arr_single: the sequential generator.  One pass
`cur = a*prev + b; V[i] = cur % (MAX-MIN+1) + MIN; prev = cur; sum += V[i]`
over `i = 0 … n-1`; returns the filled array `V` and the `uint64_t` sum
(the C++ function then returns the mean `(double)sum/(double)n`, see
`randomize_arr_single_mean`). -/
def randomize_arr_single (n : ℕ) : List ℕ × ℕ :=
  let st := (List.range n).foldl
    (fun (st : ℕ × List ℕ × ℕ) _ =>
      let cur := (lcgA * st.1 + lcgB) % M64
      let v := cur % (MAX - MIN + 1) + MIN
      (cur, st.2.1 ++ [v], (st.2.2 + v) % M64))
    (SEED, [], 0)
  (st.2.1, st.2.2)

/-- Mean returned by randomize_arr_single: `(double)sum / (double)n`. -/
def randomize_arr_single_mean (n : ℕ) : ℚ :=
  ((randomize_arr_single n).2 : ℚ) / (n : ℚ)

/-- getA: `res = 1; for (i = 1; i <= size; i++) res = res * a;` — computes
`a^size` with `uint64_t` wraparound. -/
def getA (size a : ℕ) : ℕ :=
  (List.range size).foldl (fun res _ => res * a % M64) 1

/-- getB from main.cpp, with its heap allocation modelled faithfully:
`uint64_t* acc = new uint64_t(size)` allocates ONE `uint64_t` holding the
value `size` — not an array of `size` cells — so the buffer is the single
cell `[size]`.  The code then runs `acc[0] = 1;` and
`for (i = 1; i <= size; i++) { for (j = 0; j < i; j++) acc[i] = acc[j] * a;
res += acc[i]; }`, indexing `acc[1], …, acc[size]` past the end of the
allocation; the model returns `none` at the first out-of-bounds access. -/
def getB (size a : ℕ) : Option ℕ :=
  let acc0 : List ℕ := [size]
  match heapSet acc0 0 1 with
  | none => none
  | some acc1 =>
    match (List.range size).foldlM
      (fun (st : List ℕ × ℕ) k =>
        let i := k + 1
        match (List.range i).foldlM
          (fun acc j =>
            match heapGet acc j with
            | none => none
            | some v => heapSet acc i (v * a % M64))
          st.1 with
        | none => none
        | some acc2 =>
          match heapGet acc2 i with
          | none => none
          | some v => some (acc2, (st.2 + v) % M64))
      (acc1, 1) with
    | none => none
    | some st => some st.2

/-- One worker of randomize_arr_fs: the strided loop
`for (i = t; i < n; i += T)` computing
`cur = getA(i+1,a)*prev + getB(i,a)*b` on its first index and
`cur = LUTA*prev + LUTB` afterwards, then `V[i] = cur % (MAX-MIN+1) + MIN`.
Structurally recursive on a fuel: with `T ≥ 1` a fuel of `n` is enough for
the loop to run to completion, because `i` grows by `T ≥ 1` per iteration
(the C++ loop would not terminate for `T = 0`). -/
def fs_worker (n T t LUTA LUTB : ℕ) : ℕ → ℕ → ℕ → List ℕ → Option (List ℕ)
  | 0, _, _, V => some V
  | fuel + 1, i, prev, V =>
    if i < n then
      match (if i = t then
          match getB i lcgA with
          | none => none
          | some gb => some ((getA (i + 1) lcgA * prev + gb * lcgB) % M64)
        else some ((LUTA * prev + LUTB) % M64)) with
      | none => none
      | some cur =>
        match heapSet V i (cur % (MAX - MIN + 1) + MIN) with
        | none => none
        | some V2 => fs_worker n T t LUTA LUTB fuel (i + T) cur V2
    else some V

/-- The `T` workers of randomize_arr_fs, linearized in worker order (their
writes go to disjoint strided positions of `V`, so any interleaving is
equivalent).  Each starts at `i = t` with `prev = SEED`. -/
def fs_workers (n T LUTA LUTB : ℕ) (V0 : List ℕ) : Option (List ℕ) :=
  (List.range T).foldlM (fun V t => fs_worker n T t LUTA LUTB n t SEED V) V0

/-- randomize_arr_fs: the parallel jump-ahead generator.  The single region
computes `LUTA = getA(T, a)` and `LUTB = getB(T-1, a) * b`, the `T` workers
fill the caller's `n`-cell array `V` (modelled zero-initialized), and the
main thread sums `V` and returns the array and the `uint64_t` sum. -/
def randomize_arr_fs (n T : ℕ) : Option (List ℕ × ℕ) :=
  let LUTA := getA T lcgA
  match getB (T - 1) lcgA with
  | none => none
  | some gb =>
    let LUTB := gb * lcgB % M64
    match fs_workers n T LUTA LUTB (List.replicate n 0) with
    | none => none
    | some V => some (V, V.foldl (fun s v => (s + v) % M64) 0)

/-- Mean returned by randomize_arr_fs: `(double)sum / (double)n`. -/
def randomize_arr_fs_mean (n T : ℕ) : Option ℚ :=
  (randomize_arr_fs n T).map (fun p => (p.2 : ℚ) / (n : ℚ))

/-- C9 evidence: `new uint64_t(size)` in getB allocates a single integer, so
`getB size a` is an out-of-bounds heap access (undefined behaviour) for every
`size ≥ 1` — here `getB 1 = none` while `getB 0 = some 1`.  Consequently
randomize_arr_fs, which computes `getB(T-1, a)` (and `getB(t, a)` in worker
`t`), faults for every worker count `T ≥ 2`, e.g. at `n = 4`, `T = 2`; with
`T = 1` (the only count avoiding the out-of-bounds indexing) it agrees with
the sequential randomize_arr_single exactly, values, sum and mean alike. -/
theorem getB_out_of_bounds :
    getB 0 lcgA = some 1
  ∧ getB 1 lcgA = none
  ∧ randomize_arr_fs 4 2 = none
  ∧ randomize_arr_fs 4 1 = some (randomize_arr_single 4)
  ∧ randomize_arr_fs_mean 4 1 = some (randomize_arr_single_mean 4) := by
  have h4 : randomize_arr_fs 4 1 = some (randomize_arr_single 4) := by decide
  refine ⟨by decide, by decide, by decide, h4, ?_⟩
  show (randomize_arr_fs 4 1).map _ = _
  rw [h4]
  rfl
